import Mathlib

/-!
Shallow embedding of `src/convert.py` (Hamilton personography XML-to-CSV
converter).  XML elements are modelled as a nested inductive carrying the
tag, the attribute list, the element's own head text (`.text` in lxml,
`none` when absent), the child elements, and the tail text that follows the
element.  Python strings are Lean `String`s; Python `dict`s keyed by id
pairs are modelled as insertion-ordered association lists with Python's
update-in-place / append semantics.  A Python function that can raise is
modelled with `Option` (`none` = exception).
-/

namespace Convert

/-- XML element, as exposed by lxml: tag name, attributes, own head text,
children, tail text.  The TEI namespace prefix that the source splices into
every tag string is uniform formatting, so tags are carried as local names. -/
inductive Element where
  | mk (tag : String) (attrib : List (String × String)) (text : Option String)
       (children : List Element) (tail : Option String)

def Element.tag : Element → String
  | .mk t _ _ _ _ => t

def Element.attrib : Element → List (String × String)
  | .mk _ a _ _ _ => a

def Element.text : Element → Option String
  | .mk _ _ tx _ _ => tx

def Element.children : Element → List Element
  | .mk _ _ _ cs _ => cs

def Element.tail : Element → Option String
  | .mk _ _ _ _ tl => tl

/-- Attribute lookup, `att['k']` / `'k' in att` combined: XML attributes are
unique per element, so the first match is the value. -/
def attrGet (a : List (String × String)) (k : String) : Option String :=
  (a.find? (fun p => decide (p.1 = k))).map Prod.snd

/-- The multi-value delimiter `CONCHAR = "$"` of the source. -/
def CONCHAR : String := "$"

/-- Python `str.split()` with no argument: split on runs of whitespace,
producing no empty tokens.  `acc` holds the current token reversed. -/
def splitWsAux : List Char → List Char → List String
  | [], acc => if acc.isEmpty then [] else [⟨acc.reverse⟩]
  | c :: cs, acc =>
    if c.isWhitespace then
      if acc.isEmpty then splitWsAux cs [] else ⟨acc.reverse⟩ :: splitWsAux cs []
    else splitWsAux cs (c :: acc)

/-- Python `s.split()` on a `String`. -/
def pySplit (s : String) : List String :=
  splitWsAux s.data []

/-- Python `s.strip()`: drop leading and trailing whitespace. -/
def pyStrip (s : String) : String :=
  ⟨((s.data.dropWhile Char.isWhitespace).reverse.dropWhile Char.isWhitespace).reverse⟩

/-- Python `s.replace('\n', '<br/>')`: the pattern is one character, so this
is a character-wise substitution. -/
def replaceBreaks (s : String) : String :=
  String.join (s.data.map (fun c => if c = '\n' then "<br/>" else String.singleton c))

/-- Python `sep.join(items)`. -/
def joinWith (sep : String) : List String → String
  | [] => ""
  | [x] => x
  | x :: y :: xs => x ++ sep ++ joinWith sep (y :: xs)

/-- Python `str.title()`: the first character of every alphabetic run is
uppercased, the rest lowercased. -/
def pyTitle (s : String) : String :=
  (s.data.foldl
    (fun (acc : String × Bool) c =>
      if c.isAlpha then
        (acc.1.push (if acc.2 then c.toLower else c.toUpper), true)
      else (acc.1.push c, false))
    ("", false)).1

mutual

/-- Text serialisation of lxml `etree.tostring(e, method='text')` without the
top element's tail: the element's own text followed by, for each child, the
child's serialisation and then the child's tail. -/
def innerText : Element → String
  | .mk _ _ tx cs _ => tx.getD "" ++ innerTextList cs

/-- Serialisation of a child list: each child's text content followed by its
tail text. -/
def innerTextList : List Element → String
  | [] => ""
  | c :: cs => innerText c ++ c.tail.getD "" ++ innerTextList cs

end

/-- Full `etree.tostring(e, method='text', encoding='unicode')`, which by
default also appends the element's own tail text. -/
def tostringText (e : Element) : String :=
  innerText e ++ e.tail.getD ""

/-- Source `_format_note`: serialise the note's text content (tags stripped),
strip surrounding whitespace, replace line breaks with an inline marker. -/
def format_note (note : Element) : String :=
  replaceBreaks (pyStrip (tostringText note))

/-- Source `_format_type`: the note's type attribute followed by a colon and
space, or the empty string when the attribute is absent. -/
def format_type (note : Element) : String :=
  match attrGet note.attrib "type" with
  | some t => t ++ ": "
  | none => ""

/-- Source `_stringify_note`: `None` unless the note's own text is present,
non-empty and non-whitespace; otherwise the type label followed by the
formatted text. -/
def stringify_note (note : Element) : Option String :=
  match note.text with
  | some t => if t ≠ "" ∧ pyStrip t ≠ "" then some (format_type note ++ format_note note) else none
  | none => none

/-- Source `handle_note`: join the truthy stringifications with `CONCHAR`;
the comprehension keeps a note only when `_stringify_note` returns a truthy
value (not `None`, not the empty string). -/
def handle_note (notelist : List Element) : String :=
  joinWith CONCHAR ((notelist.filterMap stringify_note).filter (fun s => decide (s ≠ "")))

/-- Modelled from the spec: the Note Aggregator as §4.1 words it, where the
extracted text "must include only the note's own text content not that of
nested child elements".  Identical to `handle_note` except that the rendered
text is built from the note's own head text alone. -/
def format_note_spec (note : Element) : String :=
  replaceBreaks (pyStrip (note.text.getD ""))

/-- Modelled from the spec: stringification using only the note's own text. -/
def stringify_note_spec (note : Element) : Option String :=
  match note.text with
  | some t => if t ≠ "" ∧ pyStrip t ≠ "" then some (format_type note ++ format_note_spec note) else none
  | none => none

/-- Modelled from the spec: the Note Aggregator over own-text-only rendering. -/
def handle_note_spec (notelist : List Element) : String :=
  joinWith CONCHAR ((notelist.filterMap stringify_note_spec).filter (fun s => decide (s ≠ "")))

/-- Source `handle_date`: exact `when` attribute verbatim; else a Heurist
range token from `notBefore` / `notAfter`; else the empty string. -/
def handle_date (node : Element) : String :=
  let att := node.attrib
  match attrGet att "when" with
  | some w => w
  | none =>
    if (attrGet att "notBefore").isSome ∨ (attrGet att "notAfter").isSome then
      let TPQ := (attrGet att "notBefore").getD ""
      let TAQ := (attrGet att "notAfter").getD ""
      "[ |VER=1|TYP=p|TPQ=" ++ TPQ ++ "|TAQ=" ++ TAQ ++ "|DET=0|CLD=Gregorian|SPF=0|EPF=0 ]"
    else ""

/-- Source `_convert_rel_type`: `"1stCousin"` maps to `"isCousinOf"`,
`"dummy"` maps to `None`, any other name `X` to `"is" + X.title() + "Of"`. -/
def convert_rel_type (name : String) : Option String :=
  if name = "1stCousin" then some "isCousinOf"
  else if name = "dummy" then none
  else some ("is" ++ pyTitle name ++ "Of")

/-- All 2-element combinations of a list in `itertools.combinations` order:
pairs are emitted in the order of the list positions, never reordered. -/
def combinations2 : List String → List (String × String)
  | [] => []
  | x :: xs => xs.map (fun y => (x, y)) ++ combinations2 xs

/-- The `itertools.product` of two lists, in row-major order. -/
def listProd (xs ys : List String) : List (String × String) :=
  match xs with
  | [] => []
  | x :: rest => ys.map (fun y => (x, y)) ++ listProd rest ys

/-- A Python dict from ordered id pairs to relation labels, as an
insertion-ordered association list; `None` labels are represented by
`none`. -/
abbrev RelDict := List ((String × String) × Option String)

/-- Python `d[k] = v`: update the existing entry in place, else append. -/
def dictInsert (d : RelDict) (k : String × String) (v : Option String) : RelDict :=
  if d.any (fun p => decide (p.1 = k)) then
    d.map (fun p => if p.1 = k then (k, v) else p)
  else d ++ [(k, v)]

/-- Python `k in d`. -/
def dictContains (d : RelDict) (k : String × String) : Bool :=
  d.any (fun p => decide (p.1 = k))

/-- Python `d1 | d2` on dicts: keys of `d1` in order with `d2` overriding on
collision, then the remaining keys of `d2` in insertion order. -/
def dictMerge (d1 d2 : RelDict) : RelDict :=
  d2.foldl (fun acc p => dictInsert acc p.1 p.2) d1

/-- Body of the `mutual` branch of `handle_relations`: stage every
2-combination of the whitespace-split participant list, unconditionally. -/
def stage_mutual (tmp : RelDict) (rel_type : Option String) (m : String) : RelDict :=
  (combinations2 (pySplit m)).foldl (fun t pair => dictInsert t pair rel_type) tmp

/-- Body of the `active`/`passive` branch of `handle_relations`: sources
range over the `active` list, targets over the `passive` list, and a pair is
staged only when its inverse is not already in the accumulated `rel_dict`. -/
def stage_directed (rel_dict tmp : RelDict) (rel_type : Option String) (a p : String) : RelDict :=
  (listProd (pySplit a) (pySplit p)).foldl
    (fun t st => if dictContains rel_dict (st.2, st.1) then t else dictInsert t st rel_type)
    tmp

/-- One iteration of the `for rel in relations` loop of `handle_relations`:
skip a declaration without a `name` attribute, otherwise stage its pairs
into the per-person `tmp_dict`. -/
def process_rel (rel_dict : RelDict) (tmp : RelDict) (rel : Element) : RelDict :=
  match attrGet rel.attrib "name" with
  | none => tmp
  | some name =>
    let rel_type := convert_rel_type name
    match attrGet rel.attrib "mutual" with
    | some m => stage_mutual tmp rel_type m
    | none =>
      match attrGet rel.attrib "active", attrGet rel.attrib "passive" with
      | some a, some p => stage_directed rel_dict tmp rel_type a p
      | _, _ => tmp

/-- The source's `person.findall('note/listRelation/relation')`: relation
elements reached through a note child and a listRelation child. -/
def findRelations (person : Element) : List Element :=
  ((((person.children.filter (fun c => decide (c.tag = "note"))).map
      (fun n => n.children.filter (fun c => decide (c.tag = "listRelation")))).flatten).map
      (fun lr => lr.children.filter (fun c => decide (c.tag = "relation")))).flatten

/-- Source `handle_relations`: return `rel_dict` unchanged when the person
declares no relations, otherwise merge the per-person staging dict into the
accumulated dict with `rel_dict | tmp_dict`. -/
def handle_relations (person : Element) (rel_dict : RelDict) : RelDict :=
  let relations := findRelations person
  if relations.isEmpty then rel_dict
  else dictMerge rel_dict (relations.foldl (process_rel rel_dict) [])

/-- Texts of a node list as collected by the `CONCHAR.join([node.text for
node in xml_output])` branch of `eval_to_str`; `none` models the `TypeError`
that `str.join` raises when some node has no text. -/
def node_texts : List Element → Option (List String)
  | [] => some []
  | n :: ns =>
    match n.text with
    | none => none
    | some t => (node_texts ns).map (fun rest => t :: rest)

/-- The alternate-name node list `person.findall('persName/rs')` consumed by
the "Alternate Name(s) / title(s)" field. -/
def alternate_name_nodes (person : Element) : List Element :=
  ((person.children.filter (fun c => decide (c.tag = "persName"))).map
      (fun pn => pn.children.filter (fun c => decide (c.tag = "rs")))).flatten

/-- The "Alternate Name(s) / title(s)" field of the agent row:
`person.findall('persName/rs')` fed through the list branch of
`eval_to_str`, which joins the nodes' texts with `CONCHAR`.  `none` models
the exception raised when a node's text is absent. -/
def eval_alternate_names (person : Element) : Option String :=
  (node_texts (alternate_name_nodes person)).map (joinWith CONCHAR)

/-- A person whose only content is a note holding a listRelation with the
given relation elements, the shape `handle_relations` queries. -/
def mkRelPerson (rels : List Element) : Element :=
  .mk "person" [] none [.mk "note" [] none [.mk "listRelation" [] none rels none] none] none

/-- Directed sibling declaration with one active and one passive id. -/
def relC1 : Element := .mk "relation" [("name", "sibling"), ("active", "a"), ("passive", "b")] none [] none

/-- Person carrying `relC1`. -/
def personC1 : Element := mkRelPerson [relC1]

/-- Dummy-typed mutual declaration with two participants. -/
def relC2 : Element := .mk "relation" [("name", "dummy"), ("mutual", "da db")] none [] none

/-- Person carrying `relC2`. -/
def personC2 : Element := mkRelPerson [relC2]

/-- Mutual declaration whose participant list repeats its first id. -/
def relC3 : Element := .mk "relation" [("name", "friend"), ("mutual", "m n m")] none [] none

/-- Person carrying `relC3`. -/
def personC3 : Element := mkRelPerson [relC3]

/-- Directed declaration used to witness the inverse suppression. -/
def relC3w : Element := .mk "relation" [("name", "parent"), ("active", "q"), ("passive", "r")] none [] none

/-- Person carrying `relC3w`. -/
def personC3w : Element := mkRelPerson [relC3w]

/-- Mutual declaration whose ids carry the `#` reference marker. -/
def relC4 : Element := .mk "relation" [("name", "sibling"), ("mutual", "#p1 #p2")] none [] none

/-- Person carrying `relC4`. -/
def personC4 : Element := mkRelPerson [relC4]

/-- Directed declaration from u to v. -/
def relC5a : Element := .mk "relation" [("name", "parent"), ("active", "u"), ("passive", "v")] none [] none

/-- Directed declaration from v to u, the inverse of `relC5a`. -/
def relC5b : Element := .mk "relation" [("name", "parent"), ("active", "v"), ("passive", "u")] none [] none

/-- Person declaring both directions of the same pair in one note. -/
def personC5 : Element := mkRelPerson [relC5a, relC5b]

/-- Mutual declaration with three distinct participants. -/
def relC6 : Element := .mk "relation" [("name", "friend"), ("mutual", "e f g")] none [] none

/-- Person carrying `relC6`. -/
def personC6 : Element := mkRelPerson [relC6]

/-- Mutual declaration whose participant list holds the same id twice. -/
def relC9 : Element := .mk "relation" [("name", "twin"), ("mutual", "w w")] none [] none

/-- Person carrying `relC9`. -/
def personC9 : Element := mkRelPerson [relC9]

/-- A note with own text and a nested child element carrying further text. -/
def noteC7x : Element := .mk "note" [] (some "A") [.mk "rs" [] (some "B") [] none] none

/-- Typed biographical note. -/
def noteBio : Element := .mk "note" [("type", "biographical")] (some "Born in York") [] none

/-- Untyped note. -/
def noteUnc : Element := .mk "note" [] (some "Uncertain") [] none

/-- Nested note used in the amended Note Aggregator statement. -/
def noteC7n : Element := .mk "note" [] (some "C") [.mk "rs" [] (some "D") [] none] none

/-- Note whose text spans two lines. -/
def noteLB : Element := .mk "note" [] (some "X\nY") [] none

/-- Date node with both an exact date and a bound attribute. -/
def nodeC8when : Element := .mk "birth" [("when", "1756-03-21"), ("notBefore", "1750")] none [] none

/-- Date node with only a notBefore bound. -/
def nodeC8range : Element := .mk "death" [("notBefore", "1800")] none [] none

/-- Alternate-name element without text content. -/
def rsC10 : Element := .mk "rs" [] none [] none

/-- Person with one alternate-name element lacking text. -/
def personC10 : Element :=
  .mk "person" [] none [.mk "persName" [] none [rsC10] none] none

/-- Provenance of a staged entry: the declaration `rel` names the entry's
label through `_convert_rel_type`, and the two ids of the pair are verbatim
whitespace-split tokens of the declaration's participant attributes. -/
def pair_from_rel (rel : Element) (p : (String × String) × Option String) : Prop :=
  ∃ name, attrGet rel.attrib "name" = some name ∧ p.2 = convert_rel_type name ∧
    ((∃ m, attrGet rel.attrib "mutual" = some m ∧ p.1.1 ∈ pySplit m ∧ p.1.2 ∈ pySplit m) ∨
     (attrGet rel.attrib "mutual" = none ∧ ∃ av pv, attrGet rel.attrib "active" = some av ∧
       attrGet rel.attrib "passive" = some pv ∧ p.1.1 ∈ pySplit av ∧ p.1.2 ∈ pySplit pv))

/-! Helper lemmas about the dict model and the pair generators. -/

theorem mem_dictInsert {d : RelDict} {k : String × String} {v : Option String}
    {p : (String × String) × Option String} (h : p ∈ dictInsert d k v) :
    p ∈ d ∨ p = (k, v) := by
  unfold dictInsert at h
  split at h
  · rcases List.mem_map.mp h with ⟨q, hq, hqe⟩
    by_cases hk : q.1 = k
    · right
      rw [if_pos hk] at hqe
      exact hqe.symm
    · left
      rw [if_neg hk] at hqe
      exact hqe ▸ hq
  · rcases List.mem_append.mp h with h1 | h1
    · exact Or.inl h1
    · right
      simpa using h1

theorem dictContains_false_iff {d : RelDict} {k : String × String} :
    dictContains d k = false ↔ ∀ p ∈ d, p.1 ≠ k := by
  simp [dictContains]

theorem dictContains_dictInsert_false {d : RelDict} {k k2 : String × String}
    {v : Option String} (hne : k ≠ k2) (h : dictContains d k2 = false) :
    dictContains (dictInsert d k v) k2 = false := by
  rw [dictContains_false_iff] at h ⊢
  intro p hp
  rcases mem_dictInsert hp with hp1 | hp1
  · exact h p hp1
  · rw [hp1]
    exact hne

theorem mem_combinations2 {l : List String} {p : String × String}
    (h : p ∈ combinations2 l) : p.1 ∈ l ∧ p.2 ∈ l := by
  induction l with
  | nil => simp [combinations2] at h
  | cons x xs ih =>
    simp only [combinations2, List.mem_append, List.mem_map] at h
    rcases h with ⟨y, hy, hye⟩ | h
    · rw [← hye]
      exact ⟨List.mem_cons_self x xs, List.mem_cons_of_mem x hy⟩
    · rcases ih h with ⟨h1, h2⟩
      exact ⟨List.mem_cons_of_mem x h1, List.mem_cons_of_mem x h2⟩

theorem mem_listProd {xs ys : List String} {p : String × String}
    (h : p ∈ listProd xs ys) : p.1 ∈ xs ∧ p.2 ∈ ys := by
  induction xs with
  | nil => simp [listProd] at h
  | cons x rest ih =>
    simp only [listProd, List.mem_append, List.mem_map] at h
    rcases h with ⟨y, hy, hye⟩ | h
    · rw [← hye]
      exact ⟨List.mem_cons_self x rest, hy⟩
    · rcases ih h with ⟨h1, h2⟩
      exact ⟨List.mem_cons_of_mem x h1, h2⟩

theorem mem_foldl_dictInsert (rt : Option String) :
    ∀ (ks : List (String × String)) (tmp : RelDict) (p : (String × String) × Option String),
      p ∈ ks.foldl (fun t k => dictInsert t k rt) tmp →
      p ∈ tmp ∨ ∃ k ∈ ks, p = (k, rt) := by
  intro ks
  induction ks with
  | nil => intro tmp p h; exact Or.inl h
  | cons k ks ih =>
    intro tmp p h
    rcases ih (dictInsert tmp k rt) p h with h1 | ⟨k2, hk2, hpe⟩
    · rcases mem_dictInsert h1 with h2 | h2
      · exact Or.inl h2
      · exact Or.inr ⟨k, List.mem_cons_self k ks, h2⟩
    · exact Or.inr ⟨k2, List.mem_cons_of_mem k hk2, hpe⟩

theorem mem_foldl_cond_insert (rt : Option String) (cond : String × String → Bool) :
    ∀ (ks : List (String × String)) (tmp : RelDict) (p : (String × String) × Option String),
      p ∈ ks.foldl (fun t k => if cond k then t else dictInsert t k rt) tmp →
      p ∈ tmp ∨ ∃ k ∈ ks, p = (k, rt) ∧ cond k = false := by
  intro ks
  induction ks with
  | nil => intro tmp p h; exact Or.inl h
  | cons k ks ih =>
    intro tmp p h
    simp only [List.foldl_cons] at h
    by_cases hc : cond k = true
    · rw [if_pos hc] at h
      rcases ih tmp p h with h1 | ⟨k2, hk2, hpe, hce⟩
      · exact Or.inl h1
      · exact Or.inr ⟨k2, List.mem_cons_of_mem k hk2, hpe, hce⟩
    · rw [if_neg hc] at h
      rcases ih (dictInsert tmp k rt) p h with h1 | ⟨k2, hk2, hpe, hce⟩
      · rcases mem_dictInsert h1 with h2 | h2
        · exact Or.inl h2
        · exact Or.inr ⟨k, List.mem_cons_self k ks, h2, Bool.eq_false_iff.mpr hc⟩
      · exact Or.inr ⟨k2, List.mem_cons_of_mem k hk2, hpe, hce⟩

theorem mem_stage_mutual {tmp : RelDict} {rt : Option String} {m : String}
    {p : (String × String) × Option String} (h : p ∈ stage_mutual tmp rt m) :
    p ∈ tmp ∨ ∃ k ∈ combinations2 (pySplit m), p = (k, rt) :=
  mem_foldl_dictInsert rt (combinations2 (pySplit m)) tmp p h

theorem mem_stage_directed {rd tmp : RelDict} {rt : Option String} {a pv : String}
    {p : (String × String) × Option String} (h : p ∈ stage_directed rd tmp rt a pv) :
    p ∈ tmp ∨ ∃ k ∈ listProd (pySplit a) (pySplit pv),
      p = (k, rt) ∧ dictContains rd (k.2, k.1) = false :=
  mem_foldl_cond_insert rt (fun k => dictContains rd (k.2, k.1))
    (listProd (pySplit a) (pySplit pv)) tmp p h

theorem mem_process_rel {rd tmp : RelDict} {rel : Element}
    {p : (String × String) × Option String} (h : p ∈ process_rel rd tmp rel) :
    p ∈ tmp ∨ pair_from_rel rel p := by
  unfold process_rel at h
  split at h
  · exact Or.inl h
  · rename_i name hname
    split at h
    · rename_i m hmut
      rcases mem_stage_mutual h with h1 | ⟨k, hk, hpe⟩
      · exact Or.inl h1
      · right
        rcases mem_combinations2 hk with ⟨hk1, hk2⟩
        exact ⟨name, hname, by rw [hpe], Or.inl ⟨m, hmut, by rw [hpe]; exact hk1,
          by rw [hpe]; exact hk2⟩⟩
    · rename_i hmut
      split at h
      · rename_i av pv hact hpas
        rcases mem_stage_directed h with h1 | ⟨k, hk, hpe, _⟩
        · exact Or.inl h1
        · right
          rcases mem_listProd hk with ⟨hk1, hk2⟩
          exact ⟨name, hname, by rw [hpe], Or.inr ⟨hmut, av, pv, hact, hpas,
            by rw [hpe]; exact hk1, by rw [hpe]; exact hk2⟩⟩
      · exact Or.inl h

theorem mem_foldl_process_rel (rd : RelDict) :
    ∀ (rels : List Element) (tmp : RelDict) (p : (String × String) × Option String),
      p ∈ rels.foldl (process_rel rd) tmp →
      p ∈ tmp ∨ ∃ rel ∈ rels, pair_from_rel rel p := by
  intro rels
  induction rels with
  | nil => intro tmp p h; exact Or.inl h
  | cons rel rels ih =>
    intro tmp p h
    rcases ih (process_rel rd tmp rel) p h with h1 | ⟨rel2, hrel2, hprov⟩
    · rcases mem_process_rel h1 with h2 | h2
      · exact Or.inl h2
      · exact Or.inr ⟨rel, List.mem_cons_self rel rels, h2⟩
    · exact Or.inr ⟨rel2, List.mem_cons_of_mem rel hrel2, hprov⟩

theorem mem_dictMerge :
    ∀ (d2 d1 : RelDict) (p : (String × String) × Option String),
      p ∈ dictMerge d1 d2 → p ∈ d1 ∨ p ∈ d2 := by
  intro d2
  induction d2 with
  | nil => intro d1 p h; exact Or.inl h
  | cons q qs ih =>
    intro d1 p h
    rcases ih (dictInsert d1 q.1 q.2) p (by simpa [dictMerge] using h) with h1 | h1
    · rcases mem_dictInsert h1 with h2 | h2
      · exact Or.inl h2
      · right
        rw [h2]
        exact List.mem_cons_self _ _
    · exact Or.inr (List.mem_cons_of_mem q h1)

theorem dictContains_dictMerge_false {d1 d2 : RelDict} {k : String × String}
    (h1 : dictContains d1 k = false) (h2 : dictContains d2 k = false) :
    dictContains (dictMerge d1 d2) k = false := by
  rw [dictContains_false_iff] at h1 h2 ⊢
  intro p hp
  rcases mem_dictMerge d2 d1 p hp with h | h
  · exact h1 p h
  · exact h2 p h

theorem stage_directed_not_contains {rd tmp : RelDict} {rt : Option String}
    {a pv : String} {x y : String}
    (hinv : dictContains rd (y, x) = true)
    (htmp : dictContains tmp (x, y) = false) :
    dictContains (stage_directed rd tmp rt a pv) (x, y) = false := by
  rw [dictContains_false_iff]
  intro p hp
  rcases mem_stage_directed hp with h1 | ⟨k, _, hpe, hce⟩
  · exact dictContains_false_iff.mp htmp p h1
  · intro hpk
    rw [hpe] at hpk
    simp only at hpk
    rw [hpk] at hce
    simp only at hce
    rw [hce] at hinv
    exact Bool.false_ne_true hinv

theorem process_rel_not_contains {rd tmp : RelDict} {rel : Element} {x y : String}
    (hmut : attrGet rel.attrib "mutual" = none)
    (hinv : dictContains rd (y, x) = true)
    (htmp : dictContains tmp (x, y) = false) :
    dictContains (process_rel rd tmp rel) (x, y) = false := by
  unfold process_rel
  split
  · exact htmp
  · simp only [hmut]
    split
    · exact stage_directed_not_contains hinv htmp
    · exact htmp

theorem foldl_process_rel_not_contains {rd : RelDict} {x y : String}
    (hinv : dictContains rd (y, x) = true) :
    ∀ (rels : List Element) (tmp : RelDict),
      (∀ rel ∈ rels, attrGet rel.attrib "mutual" = none) →
      dictContains tmp (x, y) = false →
      dictContains (rels.foldl (process_rel rd) tmp) (x, y) = false := by
  intro rels
  induction rels with
  | nil => intro tmp _ htmp; exact htmp
  | cons rel rels ih =>
    intro tmp hmut htmp
    exact ih (process_rel rd tmp rel)
      (fun r hr => hmut r (List.mem_cons_of_mem rel hr))
      (process_rel_not_contains (hmut rel (List.mem_cons_self rel rels)) hinv htmp)

theorem count_two_mem_combinations2 :
    ∀ (l : List String) (x : String), 2 ≤ l.count x → (x, x) ∈ combinations2 l := by
  intro l
  induction l with
  | nil => intro x h; simp at h
  | cons a t ih =>
    intro x h
    rw [List.count_cons] at h
    by_cases hax : x = a
    · have hxt : x ∈ t := by
        rw [if_pos (by exact beq_iff_eq.mpr hax.symm)] at h
        have : 1 ≤ t.count x := by omega
        exact List.count_pos_iff.mp this
      simp only [combinations2, List.mem_append, List.mem_map]
      exact Or.inl ⟨x, hxt, by rw [hax]⟩
    · rw [if_neg (by simpa using fun e : a = x => hax e.symm)] at h
      simp only [combinations2, List.mem_append]
      exact Or.inr (ih x (by omega))

theorem nodup_not_mem_self_combinations2 :
    ∀ (l : List String), l.Nodup → ∀ y, (y, y) ∉ combinations2 l := by
  intro l
  induction l with
  | nil => intro _ y h; simp [combinations2] at h
  | cons a t ih =>
    intro hnd y h
    rw [List.nodup_cons] at hnd
    simp only [combinations2, List.mem_append, List.mem_map] at h
    rcases h with ⟨z, hz, hze⟩ | h
    · rcases Prod.mk.injEq a z y y ▸ hze with ⟨he1, he2⟩
      exact hnd.1 (by rw [he1, ← he2]; exact hz)
    · exact ih hnd.2 y h

theorem node_texts_eq_none {l : List Element} {n : Element}
    (hn : n ∈ l) (ht : n.text = none) : node_texts l = none := by
  induction l with
  | nil => simp at hn
  | cons m ms ih =>
    rcases List.mem_cons.mp hn with rfl | h
    · simp [node_texts, ht]
    · unfold node_texts
      cases hmt : m.text with
      | none => rfl
      | some t => rw [ih h]; rfl

/-! Claim theorems. -/

/-- C1: the claim (and the source's own comment) says that for an
active/passive declaration the recorded source id is drawn from the passive
list and the target id from the active list.  Evaluating `handle_relations`
at a declaration with active id "a" and passive id "b" shows the code
records the pair ("a", "b"): the Source column id "a" is drawn from the
`active` list and the Target id "b" from the `passive` list, the opposite of
the claim. -/
theorem C1_active_becomes_source :
    handle_relations personC1 [] = [(("a", "b"), some "isSiblingOf")] := by decide

/-- C2 counterexample: a declaration typed "dummy" with mutual participants
"da db" does leave an entry in the accumulated map, so the claim that no
pair at all is recorded is false. -/
theorem C2_dummy_pair_recorded :
    dictContains (handle_relations personC2 []) ("da", "db") = true := by decide

/-- C2 amended: a "dummy"-typed declaration still stages every pair it
generates, but each such entry carries the label `none` (an empty
relationship type), and concretely the dummy mutual declaration of
`personC2` yields exactly the entry (("da","db"), none). -/
theorem C2_dummy_label_none :
    (∀ (rd tmp : RelDict) (rel : Element) (p : (String × String) × Option String),
      attrGet rel.attrib "name" = some "dummy" → p ∈ process_rel rd tmp rel →
      p ∈ tmp ∨ p.2 = none) ∧
    handle_relations personC2 [] = [(("da", "db"), none)] := by
  constructor
  · intro rd tmp rel p hname h
    rcases mem_process_rel h with h1 | ⟨name, hname2, hval, _⟩
    · exact Or.inl h1
    · right
      rw [hname] at hname2
      rw [hval, ← Option.some.injEq "dummy" name |>.mp hname2]
      rfl
  · decide

/-- C2 witness: the dummy declaration `relC2` processed over empty dicts
stages the entry (("da","db"), none), whose label is `none`. -/
theorem C2_dummy_label_none_witness :
    (((("da", "db"), none) : (String × String) × Option String) ∈ ([] : RelDict)) ∨
    ((((("da", "db"), none) : (String × String) × Option String)).2 = none) :=
  C2_dummy_label_none.1 [] [] relC2 (("da", "db"), none) (by decide) (by decide)

/-- C3 counterexample: the mutual declaration of `personC3`, whose
participant list is "m n m", makes the accumulated map contain both
("m","n") and ("n","m"), so the claim that the map never holds both
directions is false. -/
theorem C3_both_directions_recorded :
    dictContains (handle_relations personC3 []) ("m", "n") = true ∧
    dictContains (handle_relations personC3 []) ("n", "m") = true := by decide

/-- C3 amended: the inverse-pair guarantee holds only for active/passive
declarations, checked against the already-accumulated map: when every
declaration of the person is non-mutual, the inverse ("b","a") is already
accumulated and ("a","b") is not, then ("a","b") is still absent after the
person is processed.  Mutual declarations are staged with no inverse check,
so no such guarantee exists for them. -/
theorem C3_directed_inverse_suppressed (person : Element) (rel_dict : RelDict)
    (a b : String)
    (hmut : ∀ rel ∈ findRelations person, attrGet rel.attrib "mutual" = none)
    (hinv : dictContains rel_dict (b, a) = true)
    (hno : dictContains rel_dict (a, b) = false) :
    dictContains (handle_relations person rel_dict) (a, b) = false := by
  simp only [handle_relations]
  split
  · exact hno
  · exact dictContains_dictMerge_false hno
      (foldl_process_rel_not_contains hinv (findRelations person) [] hmut rfl)

/-- C3 witness: with (("r","q"), isParentOf) already accumulated, processing
the directed declaration of `personC3w` (active "q", passive "r") does not
add ("q","r"). -/
theorem C3_directed_inverse_suppressed_witness :
    (∀ rel ∈ findRelations personC3w, attrGet rel.attrib "mutual" = none) ∧
    dictContains [(("r", "q"), some "isParentOf")] ("r", "q") = true ∧
    dictContains [(("r", "q"), some "isParentOf")] ("q", "r") = false ∧
    dictContains (handle_relations personC3w [(("r", "q"), some "isParentOf")]) ("q", "r") = false :=
  ⟨by decide, by decide, by decide,
    C3_directed_inverse_suppressed personC3w [(("r", "q"), some "isParentOf")] "q" "r"
      (by decide) (by decide) (by decide)⟩

/-- C4 counterexample: the participant ids of the mutual declaration of
`personC4` are "#p1 #p2"; the recorded pair keeps the "#" reference marker,
so the claim that marker characters are stripped before pair generation is
false. -/
theorem C4_marker_not_stripped :
    handle_relations personC4 [] = [(("#p1", "#p2"), some "isSiblingOf")] := by decide

/-- C4 amended: no marker stripping takes place: every entry of the
accumulated map either pre-existed or both of its ids are verbatim
whitespace-split tokens of a declaration's `mutual` or `active`/`passive`
attribute value, exactly as written in the source attribute. -/
theorem C4_ids_verbatim_tokens (person : Element) (rel_dict : RelDict)
    (p : (String × String) × Option String) (h : p ∈ handle_relations person rel_dict) :
    p ∈ rel_dict ∨ ∃ rel ∈ findRelations person, pair_from_rel rel p := by
  simp only [handle_relations] at h
  split at h
  · exact Or.inl h
  · rcases mem_dictMerge _ _ _ h with h1 | h1
    · exact Or.inl h1
    · rcases mem_foldl_process_rel rel_dict (findRelations person) [] p h1 with h2 | h2
      · simp at h2
      · exact Or.inr h2

/-- C4 witness: the entry (("#p1","#p2"), isSiblingOf) recorded for
`personC4` is traced back to verbatim tokens of its mutual attribute. -/
theorem C4_ids_verbatim_tokens_witness :
    (((("#p1", "#p2"), some "isSiblingOf") : (String × String) × Option String) ∈ ([] : RelDict)) ∨
    ∃ rel ∈ findRelations personC4, pair_from_rel rel (("#p1", "#p2"), some "isSiblingOf") :=
  C4_ids_verbatim_tokens personC4 [] (("#p1", "#p2"), some "isSiblingOf") (by decide)

/-- C5: the inverse-pair suppression of a directed declaration checks only
the accumulated map: a pair whose inverse is accumulated is never staged;
and the suppression does not see same-person staging, so `personC5`, whose
note declares both directions of the same pair, ends with both ("u","v")
and ("v","u") in the map. -/
theorem C5_suppression_scope :
    (∀ (rel_dict tmp : RelDict) (rt : Option String) (av pv x y : String),
        dictContains rel_dict (y, x) = true →
        dictContains tmp (x, y) = false →
        dictContains (stage_directed rel_dict tmp rt av pv) (x, y) = false) ∧
    handle_relations personC5 [] =
      [(("u", "v"), some "isParentOf"), (("v", "u"), some "isParentOf")] := by
  constructor
  · intro rd tmp rt av pv x y hinv htmp
    exact stage_directed_not_contains hinv htmp
  · decide

/-- C5 witness: with (("v","u"), isParentOf) accumulated, the directed
staging of active "u", passive "v" never stages ("u","v"). -/
theorem C5_suppression_scope_witness :
    dictContains [(("v", "u"), some "isParentOf")] ("v", "u") = true ∧
    dictContains ([] : RelDict) ("u", "v") = false ∧
    dictContains (stage_directed [(("v", "u"), some "isParentOf")] []
      (some "isParentOf") "u" "v") ("u", "v") = false :=
  ⟨by decide, by decide,
    C5_suppression_scope.1 [(("v", "u"), some "isParentOf")] [] (some "isParentOf")
      "u" "v" "u" "v" (by decide) (by decide)⟩

/-- C6: for a mutual declaration with three distinct participants [a, b, c],
the staged pairs are exactly (a,b), (a,c), (b,c) in combination order of the
list, with no inverse pair and no self-pair; concretely the mutual
declaration "e f g" of `personC6` records exactly those three entries. -/
theorem C6_mutual_three_pairs (a b c : String) (h1 : a ≠ b) (h2 : a ≠ c) (h3 : b ≠ c) :
    combinations2 [a, b, c] = [(a, b), (a, c), (b, c)] ∧
    (∀ x y, (x, y) ∈ combinations2 [a, b, c] → (y, x) ∉ combinations2 [a, b, c]) ∧
    (∀ x, (x, x) ∉ combinations2 [a, b, c]) ∧
    handle_relations personC6 [] =
      [(("e", "f"), some "isFriendOf"), (("e", "g"), some "isFriendOf"),
       (("f", "g"), some "isFriendOf")] := by
  refine ⟨rfl, ?_, ?_, by decide⟩
  · intro x y hxy hyx
    simp only [combinations2, List.map_cons, List.map_nil, List.cons_append,
      List.nil_append, List.mem_cons, List.not_mem_nil, or_false, Prod.mk.injEq] at hxy hyx
    rcases hxy with ⟨rfl, rfl⟩ | ⟨rfl, rfl⟩ | ⟨rfl, rfl⟩ <;>
      rcases hyx with ⟨e1, e2⟩ | ⟨e1, e2⟩ | ⟨e1, e2⟩ <;>
      first
        | exact h1 e2
        | exact h1 e1.symm
        | exact h2 e2
        | exact h2 e1.symm
        | exact h3 e2
  · intro x hx
    simp only [combinations2, List.map_cons, List.map_nil, List.cons_append,
      List.nil_append, List.mem_cons, List.not_mem_nil, or_false, Prod.mk.injEq] at hx
    rcases hx with ⟨e1, e2⟩ | ⟨e1, e2⟩ | ⟨e1, e2⟩
    · exact h1 (e1.symm.trans e2)
    · exact h2 (e1.symm.trans e2)
    · exact h3 (e1.symm.trans e2)

/-- C6 witness: the property instantiated at the distinct ids "e", "f",
"g". -/
theorem C6_mutual_three_pairs_witness :
    ("e" ≠ "f" ∧ "e" ≠ "g" ∧ "f" ≠ "g") ∧
    combinations2 ["e", "f", "g"] = [("e", "f"), ("e", "g"), ("f", "g")] :=
  ⟨⟨by decide, by decide, by decide⟩,
    (C6_mutual_three_pairs "e" "f" "g" (by decide) (by decide) (by decide)).1⟩

/-- C7 counterexample: a note with own text "A" and a nested child with text
"B" is rendered as "AB" by the code, while rendering the note's own text
alone (the spec's wording, `handle_note_spec`) gives "A": the extracted text
does include nested child text. -/
theorem C7_nested_text_included :
    handle_note [noteC7x] = "AB" ∧ handle_note_spec [noteC7x] = "A" := by decide

/-- C7 amended: the Note Aggregator keeps only notes whose own head text is
non-whitespace, but renders each kept note from the note's full text content
(tags stripped, nested child text included), as "type: text" when a type
attribute exists, with line breaks replaced by "<br/>", joined with "$";
notes whose own text is absent or whitespace are dropped, and when none
survive the result is the empty string. -/
theorem C7_note_aggregator (notes : List Element)
    (hdrop : ∀ n ∈ notes, ∀ t, n.text = some t → pyStrip t = "") :
    handle_note notes = "" ∧
    handle_note (notes ++ [noteBio, noteUnc, noteC7n, noteLB]) =
      "biographical: Born in York$Uncertain$CD$X<br/>Y" := by
  have hnil : notes.filterMap stringify_note = [] := by
    rw [List.filterMap_eq_nil_iff]
    intro n hn
    cases ht : n.text with
    | none => simp [stringify_note, ht]
    | some t => simp [stringify_note, ht, hdrop n hn t ht]
  constructor
  · unfold handle_note
    rw [hnil]
    rfl
  · unfold handle_note
    rw [List.filterMap_append, hnil, List.nil_append]
    decide

/-- C7 witness: a single note holding only whitespace is dropped, and
appending the four sample notes yields the typed, nested and line-broken
renderings joined with "$". -/
theorem C7_note_aggregator_witness :
    handle_note [Element.mk "note" [] (some "  ") [] none] = "" ∧
    handle_note ([Element.mk "note" [] (some "  ") [] none] ++ [noteBio, noteUnc, noteC7n, noteLB]) =
      "biographical: Born in York$Uncertain$CD$X<br/>Y" :=
  C7_note_aggregator [Element.mk "note" [] (some "  ") [] none]
    (fun n hn t ht => by
      have he : n = Element.mk "note" [] (some "  ") [] none := List.mem_singleton.mp hn
      rw [he] at ht
      have : t = "  " := (Option.some.injEq "  " t |>.mp ht).symm
      rw [this]
      decide)

/-- C8: the Date Normalizer returns the exact-date attribute verbatim when
present (ignoring any bounds), else the fixed Heurist range token when a
notBefore or notAfter bound exists, else the empty string. -/
theorem C8_date_normalizer (node : Element) :
    (∀ w, attrGet node.attrib "when" = some w → handle_date node = w) ∧
    (attrGet node.attrib "when" = none →
      ((attrGet node.attrib "notBefore").isSome ∨ (attrGet node.attrib "notAfter").isSome) →
      handle_date node = "[ |VER=1|TYP=p|TPQ=" ++ (attrGet node.attrib "notBefore").getD "" ++
        "|TAQ=" ++ (attrGet node.attrib "notAfter").getD "" ++
        "|DET=0|CLD=Gregorian|SPF=0|EPF=0 ]") ∧
    (attrGet node.attrib "when" = none → attrGet node.attrib "notBefore" = none →
      attrGet node.attrib "notAfter" = none → handle_date node = "") := by
  refine ⟨?_, ?_, ?_⟩
  · intro w hw
    simp [handle_date, hw]
  · intro hwn hb
    simp only [handle_date, hwn]
    rw [if_pos hb]
  · intro hwn hnb hna
    simp [handle_date, hwn, hnb, hna]

/-- C8 witness: `nodeC8when` carries both an exact date and a bound and
returns the exact date verbatim; `nodeC8range` carries only a notBefore
bound and returns the range token. -/
theorem C8_date_normalizer_witness :
    attrGet nodeC8when.attrib "when" = some "1756-03-21" ∧
    handle_date nodeC8when = "1756-03-21" ∧
    handle_date nodeC8range = "[ |VER=1|TYP=p|TPQ=" ++
      (attrGet nodeC8range.attrib "notBefore").getD "" ++ "|TAQ=" ++
      (attrGet nodeC8range.attrib "notAfter").getD "" ++
      "|DET=0|CLD=Gregorian|SPF=0|EPF=0 ]" :=
  ⟨by decide, (C8_date_normalizer nodeC8when).1 "1756-03-21" (by decide),
    (C8_date_normalizer nodeC8range).2.1 (by decide) (Or.inl (by decide))⟩

/-- C9: a mutual participant list holding the same id twice makes the
resolver stage the self-pair (id, id); the no-self-pair guarantee holds
exactly for duplicate-free lists; concretely the declaration "w w" of
`personC9` records ("w","w"). -/
theorem C9_duplicate_self_pair (l : List String) (x : String) :
    (2 ≤ l.count x → (x, x) ∈ combinations2 l) ∧
    (l.Nodup → ∀ y, (y, y) ∉ combinations2 l) ∧
    dictContains (handle_relations personC9 []) ("w", "w") = true :=
  ⟨count_two_mem_combinations2 l x, nodup_not_mem_self_combinations2 l, by decide⟩

/-- C9 witness: the list ["w", "z", "w"] holds "w" twice and its combination
pairs include the self-pair ("w","w"). -/
theorem C9_duplicate_self_pair_witness :
    2 ≤ (["w", "z", "w"] : List String).count "w" ∧
    ("w", "w") ∈ combinations2 ["w", "z", "w"] :=
  ⟨by decide, (C9_duplicate_self_pair ["w", "z", "w"] "w").1 (by decide)⟩

/-- C10: when some alternate-name element of a person has no text content,
the field extraction for "Alternate Name(s) / title(s)" raises (modelled as
`none`) instead of producing a string: the extractor is partial on such
persons. -/
theorem C10_missing_alt_name_text (person : Element) (n : Element)
    (hmem : n ∈ alternate_name_nodes person) (htext : n.text = none) :
    eval_alternate_names person = none := by
  unfold eval_alternate_names
  rw [node_texts_eq_none hmem htext]
  rfl

/-- C10 witness: `personC10` carries the textless alternate-name element
`rsC10`, and its field extraction yields `none`. -/
theorem C10_missing_alt_name_text_witness :
    rsC10.text = none ∧ eval_alternate_names personC10 = none :=
  ⟨rfl, C10_missing_alt_name_text personC10 rsC10 (List.Mem.head _) rfl⟩

end Convert
